import Mathlib

/-!
Verification of the Newton forward-difference interpolation engine
(`src/utils.js` and `src/sequence.js`).

JavaScript numbers are modelled as exact rationals (`ℚ`); the one place the
code performs arithmetic on a value that may be `undefined`/`NaN` (the
constructor's helper reads the coefficient slot it is currently filling) is
modelled with `Option ℚ`, `none` standing for a non-numeric value
(`undefined` or `NaN`), with arithmetic propagating `none`.
-/

namespace SeqToFormula

/-- Embedding of `factorial` from `src/utils.js`:
`let result = 1; for (let i = 2; i <= num; i++) result *= i; return result`. -/
def factorial (num : ℕ) : ℚ :=
  (List.range' 2 (num - 1)).foldl (fun (result : ℚ) (i : ℕ) => result * (i : ℚ)) 1

/-- Embedding of `fallingFactorial` from `src/utils.js`:
`let result = 1; for (let i = 1; i <= length, i++) result *= n - i; return result`. -/
def fallingFactorial (n : ℚ) (length : ℕ) : ℚ :=
  (List.range' 1 length).foldl (fun (result : ℚ) (i : ℕ) => result * (n - (i : ℚ))) 1

/-- JavaScript subtraction on possibly non-numeric values: any operand that is
`undefined`/`NaN` makes the result `NaN` (`none`). -/
def jsSub : Option ℚ → Option ℚ → Option ℚ
  | some a, some b => some (a - b)
  | _, _ => none

/-- JavaScript multiplication, propagating non-numeric operands. -/
def jsMul : Option ℚ → Option ℚ → Option ℚ
  | some a, some b => some (a * b)
  | _, _ => none

/-- JavaScript division, propagating non-numeric operands.  Every division in
the engine divides by `factorial i` with `i ≥ 1`, which is a positive number,
so the zero-divisor case never arises in this development. -/
def jsDiv : Option ℚ → Option ℚ → Option ℚ
  | some a, some b => some (a / b)
  | _, _ => none

/-- JavaScript addition, propagating non-numeric operands. -/
def jsAdd : Option ℚ → Option ℚ → Option ℚ
  | some a, some b => some (a + b)
  | _, _ => none

/-- The loop body shared by `_computeCoefficient` and `_interpolate` in
`src/sequence.js`:
`result = ((terms[i] - this.coefficients[i - 1]) * fallingFactorial(n, i)) / factorial(i) + result`.
`coeffs` is the current state of `this.coefficients`; an out-of-range or
unassigned slot reads as `none` (`undefined`). -/
def stepVal (coeffs : List (Option ℚ)) (ts : List ℚ) (n : ℚ) (result : Option ℚ)
    (i : ℕ) : Option ℚ :=
  jsAdd (jsDiv (jsMul (jsSub (ts.get? i) (coeffs.getD (i - 1) none))
    (some (fallingFactorial n i))) (some (factorial i))) result

/-- Embedding of the loop of `_computeCoefficient(...terms)(n)` from
`src/sequence.js`, returning the final values of both local variables
`(result, coefficient)`:
`let result = terms[0]; let coefficient = terms[0];`
`for (let i = 1; i < terms.length; i++) { result = ...; if (i < terms.length - 1) coefficient = result; }`. -/
def computeCoefficientRun (coeffs : List (Option ℚ)) (ts : List ℚ) (n : ℚ) :
    Option ℚ × Option ℚ :=
  (List.range' 1 (ts.length - 1)).foldl
    (fun st i =>
      (stepVal coeffs ts n st.1 i,
        if i < ts.length - 1 then stepVal coeffs ts n st.1 i else st.2))
    (ts.get? 0, ts.get? 0)

/-- `_computeCoefficient(...terms)(n)` returns the local `coefficient`. -/
def computeCoefficient (coeffs : List (Option ℚ)) (ts : List ℚ) (n : ℚ) : Option ℚ :=
  (computeCoefficientRun coeffs ts n).2

/-- State of the `this.coefficients` array after the first `r` iterations of
the constructor loop of `src/sequence.js`:
`this.coefficients = new Array(terms.length);`
`for (let i = 1; i < terms.length; i++) this.coefficients[i-1] = this._computeCoefficient(...terms.slice(0, i+1))(i+1);`.
`new Array(m)` is an array of `m` unassigned (`none`) slots. -/
def mkCoefficientsUpTo (terms : List ℚ) (r : ℕ) : List (Option ℚ) :=
  (List.range' 1 r).foldl
    (fun coeffs i =>
      coeffs.set (i - 1) (computeCoefficient coeffs (terms.take (i + 1)) ((i : ℚ) + 1)))
    (List.replicate terms.length none)

/-- The full constructor loop runs `i = 1 .. terms.length - 1`. -/
def mkCoefficients (terms : List ℚ) : List (Option ℚ) :=
  mkCoefficientsUpTo terms (terms.length - 1)

/-- The state built by `new Sequence(...terms)`. -/
structure Sequence where
  terms : List ℚ
  coefficients : List (Option ℚ)

/-- Embedding of the constructor `new Sequence(...terms)`. -/
def Sequence.make (terms : List ℚ) : Sequence :=
  { terms := terms, coefficients := mkCoefficients terms }

/-- Embedding of `_interpolate(...terms)(n)` from `src/sequence.js`:
`let result = terms[0]; for (let i = 1; i < terms.length; i++) result = ...; return result`. -/
def Sequence.interpolate (s : Sequence) (ts : List ℚ) (n : ℚ) : Option ℚ :=
  (List.range' 1 (ts.length - 1)).foldl
    (fun result i => stepVal s.coefficients ts n result i) (ts.get? 0)

/-- Embedding of `getNthTerm = (n) => this._interpolate(...this.terms)(n)`. -/
def Sequence.getNthTerm (s : Sequence) (n : ℚ) : Option ℚ :=
  s.interpolate s.terms n

/-- JavaScript template-literal rendering of an array slot: a number is
rendered by the (abstracted) number formatter `ρ`, an unassigned slot prints
as `undefined`. -/
def renderOpt (ρ : ℚ → String) : Option ℚ → String
  | some q => ρ q
  | none => "undefined"

/-- Embedding of `toFormula()` from `src/sequence.js`:
`let formula = " f(n) = ";`
`for (let k = terms.length; k > 1; k--) {`
`  let factorProduct = ""; for (let i = k - 1; i >= 1; i--) factorProduct += "(n-" + (k-i) + ")";`
`  factorProduct += "/" + (k-1) + "!";`
`  formula += "(" + terms[k-1] + " - " + coefficients[k-2] + ")" + factorProduct;`
`  if (k > 1) formula += " + "; }`
`formula += terms[0]; return formula;`
The loop visits `k = m, m-1, ..., 2`; the inner loop emits `(n-1)…(n-(k-1))`
in increasing order of `k - i`.  JavaScript number-to-string conversion is
abstracted as the parameter `ρ`. -/
def Sequence.toFormula (s : Sequence) (ρ : ℚ → String) : String :=
  ((List.range' 2 (s.terms.length - 1)).reverse.foldl
    (fun formula k =>
      formula
        ++ ("(" ++ renderOpt ρ (s.terms.get? (k - 1)) ++ " - "
            ++ renderOpt ρ (s.coefficients.getD (k - 2) none) ++ ")"
            ++ (((List.range' 1 (k - 1)).foldl
                  (fun factorProduct j => factorProduct ++ ("(n-" ++ toString j ++ ")")) "")
                ++ ("/" ++ toString (k - 1) ++ "!")))
        ++ " + ")
    " f(n) = ")
    ++ renderOpt ρ (s.terms.get? 0)

/-! ## Pure (ℚ-valued) counterpart of evaluation and construction

All reads performed by the code below are of assigned, in-range slots (proved
later), so the `Option` layer collapses to this pure description. -/

/-- The running value of the interpolation loop after iterations `1 .. r`,
reading terms from `t` and previously computed coefficients from `c`
(`getD` with default `0`; every read proved in range where this is used). -/
def interpEval (t c : List ℚ) (r : ℕ) (n : ℚ) : ℚ :=
  (List.range' 1 r).foldl
    (fun result j => (t.getD j 0 - c.getD (j - 1) 0) * fallingFactorial n j / factorial j + result)
    (t.getD 0 0)

/-- The list of numeric coefficients after `k` iterations of the constructor
loop: iteration `k+1` appends the running value of the interpolation formula
over the first `k+1` terms, stopped one step early, evaluated at `n = k + 2`. -/
def buildCoeffs (t : List ℚ) : ℕ → List ℚ
  | 0 => []
  | k + 1 => buildCoeffs t k ++ [interpEval t (buildCoeffs t k) k ((k : ℚ) + 2)]

/-- The `k`-th stored coefficient (0-indexed), as a rational. -/
def coeff (t : List ℚ) (k : ℕ) : ℚ :=
  interpEval t (buildCoeffs t k) k ((k : ℚ) + 2)

/-- All numeric coefficients of `new Sequence(...t)`. -/
def pureCoeffs (t : List ℚ) : List ℚ :=
  buildCoeffs t (t.length - 1)

/-! ## Spec-side definitions used by refinement claims -/

/-- Modelled from the spec (§4.2 / claim C2): the value of the interpolation
formula built from the already-known coefficients `c[0..k-2]` over the prefix
`t[0..k-1]`, evaluated at `n = k + 1`. -/
def specCoefficient (t c : List ℚ) (k : ℕ) : ℚ :=
  t.getD 0 0 + ∑ j in Finset.Icc 1 (k - 1),
    (t.getD j 0 - c.getD (j - 1) 0) * fallingFactorial ((k : ℚ) + 1) j / factorial j

/-- Modelled from the spec (§8 / claim C6): the arithmetic value of the string
returned by `toFormula()` — the sum over `k = m` down to `2` of
`(t[k-1] - c[k-2]) * (n-1)*(n-2)*...*(n-(k-1)) / (k-1)!` plus the constant
`t[0]`. -/
def formulaValue (t c : List ℚ) (n : ℚ) : ℚ :=
  (∑ k in Finset.Icc 2 t.length,
      (t.getD (k - 1) 0 - c.getD (k - 2) 0) * fallingFactorial n (k - 1) / factorial (k - 1))
    + t.getD 0 0

/-- Concatenation of a list of strings (used to state the explicit factor
product of the rendered formula). -/
def concatStrings : List String → String
  | [] => ""
  | s :: rest => s ++ concatStrings rest

/-- Strings joined with a `" + "` separator; the last element carries no
trailing operator. -/
def joinedPlus : List String → String
  | [] => ""
  | [s] => s
  | s :: rest => s ++ " + " ++ joinedPlus rest

/-- Modelled from the spec (§4.4 / claim C7): the rendering of the order-`k`
term of the formula — the coefficient difference `(t[k-1] - c[k-2])`, the
falling-factorial product expanded as explicit `(n-j)` factors for
`j = 1..k-1`, and the factorial denominator `(k-1)!`. -/
def termString (ρ : ℚ → String) (t c : List ℚ) (k : ℕ) : String :=
  "(" ++ ρ (t.getD (k - 1) 0) ++ " - " ++ ρ (c.getD (k - 2) 0) ++ ")"
    ++ (concatStrings ((List.range' 1 (k - 1)).map (fun j => "(n-" ++ toString j ++ ")"))
        ++ ("/" ++ toString (k - 1) ++ "!"))

/-! ## Arithmetic primitives -/

lemma factorial_succ (k : ℕ) : factorial (k + 1) = factorial k * ((k : ℚ) + 1) := by
  cases k with
  | zero => norm_num [factorial]
  | succ m =>
      unfold factorial
      rw [show m + 1 + 1 - 1 = m + 1 from rfl, List.range'_1_concat, List.foldl_append]
      simp only [List.foldl_cons, List.foldl_nil]
      push_cast
      ring

lemma factorial_eq (k : ℕ) : factorial k = (Nat.factorial k : ℚ) := by
  induction k with
  | zero => norm_num [factorial]
  | succ m ih => rw [factorial_succ, ih, Nat.factorial_succ]; push_cast; ring

lemma factorial_ne_zero (k : ℕ) : factorial k ≠ 0 := by
  rw [factorial_eq]
  exact_mod_cast Nat.factorial_ne_zero k

lemma fallingFactorial_zero (n : ℚ) : fallingFactorial n 0 = 1 := rfl

lemma fallingFactorial_succ (n : ℚ) (k : ℕ) :
    fallingFactorial n (k + 1) = fallingFactorial n k * (n - ((k : ℚ) + 1)) := by
  unfold fallingFactorial
  rw [List.range'_1_concat, List.foldl_append]
  simp only [List.foldl_cons, List.foldl_nil]
  push_cast
  ring

/-- The falling factorial as a product over `1..k`. -/
lemma fallingFactorial_eq_prod (n : ℚ) (k : ℕ) :
    fallingFactorial n k = ∏ i in Finset.Icc 1 k, (n - (i : ℚ)) := by
  induction k with
  | zero => simp [fallingFactorial_zero]
  | succ m ih =>
      rw [fallingFactorial_succ, ih, Finset.prod_Icc_succ_top (by omega)]
      push_cast
      ring

/-- `(n-1)⋯(n-k)` vanishes at every integer `n = i` with `1 ≤ i ≤ k`. -/
lemma fallingFactorial_vanish (k : ℕ) (i : ℕ) (h1 : 1 ≤ i) (h2 : i ≤ k) :
    fallingFactorial (i : ℚ) k = 0 := by
  induction k with
  | zero => omega
  | succ m ih =>
      rw [fallingFactorial_succ]
      by_cases hi : i ≤ m
      · rw [ih hi]; ring
      · have him : i = m + 1 := by omega
        subst him
        push_cast
        ring

lemma fallingFactorial_shift (k : ℕ) : ∀ d : ℕ,
    fallingFactorial ((k : ℚ) + 1 + (d : ℚ)) k =
      (Nat.factorial (k + d) : ℚ) / (Nat.factorial d : ℚ) := by
  induction k with
  | zero =>
      intro d
      rw [fallingFactorial_zero, Nat.zero_add, div_self]
      exact_mod_cast Nat.factorial_ne_zero d
  | succ m ih =>
      intro d
      have h1 : ((m + 1 : ℕ) : ℚ) + 1 + (d : ℚ) = (m : ℚ) + 1 + ((d + 1 : ℕ) : ℚ) := by
        push_cast; ring
      rw [fallingFactorial_succ, h1, ih (d + 1)]
      have hd : (Nat.factorial d : ℚ) ≠ 0 := by exact_mod_cast Nat.factorial_ne_zero d
      have hd1 : ((d : ℚ) + 1) ≠ 0 := by positivity
      have harg : m + (d + 1) = m + 1 + d := by omega
      rw [harg, Nat.factorial_succ]
      push_cast
      field_simp
      ring

/-- `(n-1)⋯(n-k)` at `n = k + 1` equals `k!`. -/
lemma fallingFactorial_self (k : ℕ) : fallingFactorial ((k : ℚ) + 1) k = factorial k := by
  have h := fallingFactorial_shift k 0
  simp only [Nat.cast_zero, add_zero, Nat.add_zero, Nat.factorial_zero, Nat.cast_one,
    div_one] at h
  rw [h, factorial_eq]

/-! ## The pure evaluation recurrence -/

lemma interpEval_zero (t c : List ℚ) (n : ℚ) : interpEval t c 0 n = t.getD 0 0 := rfl

lemma interpEval_succ (t c : List ℚ) (r : ℕ) (n : ℚ) :
    interpEval t c (r + 1) n =
      (t.getD (r + 1) 0 - c.getD r 0) * fallingFactorial n (r + 1) / factorial (r + 1)
        + interpEval t c r n := by
  unfold interpEval
  rw [List.range'_1_concat, List.foldl_append]
  simp only [List.foldl_cons, List.foldl_nil, Nat.add_comm 1 r, Nat.add_sub_cancel]

lemma interpEval_congr {t₁ t₂ c₁ c₂ : List ℚ} (r : ℕ) (n : ℚ)
    (ht0 : t₁.getD 0 0 = t₂.getD 0 0)
    (ht : ∀ j, 1 ≤ j → j ≤ r → t₁.getD j 0 = t₂.getD j 0)
    (hc : ∀ j, j < r → c₁.getD j 0 = c₂.getD j 0) :
    interpEval t₁ c₁ r n = interpEval t₂ c₂ r n := by
  induction r with
  | zero => simpa [interpEval_zero] using ht0
  | succ m ih =>
      rw [interpEval_succ, interpEval_succ, ht (m + 1) (by omega) (by omega),
        hc m (by omega), ih (fun j h1 h2 => ht j h1 (by omega)) (fun j h => hc j (by omega))]

lemma buildCoeffs_length (t : List ℚ) (k : ℕ) : (buildCoeffs t k).length = k := by
  induction k with
  | zero => rfl
  | succ m ih => simp [buildCoeffs, ih]

lemma buildCoeffs_succ (t : List ℚ) (k : ℕ) :
    buildCoeffs t (k + 1) = buildCoeffs t k ++ [coeff t k] := rfl

lemma buildCoeffs_getD (t : List ℚ) {k K : ℕ} (h : k < K) :
    (buildCoeffs t K).getD k 0 = coeff t k := by
  induction K with
  | zero => omega
  | succ M ih =>
      rw [buildCoeffs_succ, List.getD_eq_getElem?_getD]
      by_cases hk : k < M
      · rw [List.getElem?_append_left (by rw [buildCoeffs_length]; omega),
          ← List.getD_eq_getElem?_getD]
        exact ih hk
      · have hkM : k = M := by omega
        subst hkM
        rw [List.getElem?_append_right (by rw [buildCoeffs_length]),
          buildCoeffs_length, Nat.sub_self]
        rfl

/-- `interpEval` over `r` steps only reads coefficients `0 .. r-1`, so any
stage `K ≥ k` of the coefficient construction gives the same value. -/
lemma interpEval_buildCoeffs_congr (t : List ℚ) {k K : ℕ} (h : k ≤ K) (n : ℚ) :
    interpEval t (buildCoeffs t K) k n = interpEval t (buildCoeffs t k) k n :=
  interpEval_congr k n rfl (fun _ _ _ => rfl)
    (fun j hj => by rw [buildCoeffs_getD t (by omega), buildCoeffs_getD t hj])

/-! ## The interpolation identity (pure layer)

`interpEval t (buildCoeffs t k) k` is the polynomial the engine evaluates
after `k` construction steps; it passes through the first `k + 1` terms.
The crux: the stored coefficient `coeff t k` is the previous polynomial's
value at `n = k + 2`, and the falling factorial `(n-1)⋯(n-(k+1))` equals
`(k+1)!` there, so the division cancels and the new polynomial's value at
`k + 2` is exactly the term `t[k+1]`. -/

theorem interpEval_interpolates (t : List ℚ) :
    ∀ k, k < t.length → ∀ i : ℕ, 1 ≤ i → i ≤ k + 1 →
      interpEval t (buildCoeffs t k) k (i : ℚ) = t.getD (i - 1) 0 := by
  intro k
  induction k with
  | zero =>
      intro _ i h1 h2
      have hi : i = 1 := by omega
      subst hi
      rfl
  | succ m ih =>
      intro hlen i h1 h2
      rw [interpEval_succ, buildCoeffs_getD t (by omega),
        interpEval_buildCoeffs_congr t (by omega)]
      by_cases hi : i ≤ m + 1
      · rw [fallingFactorial_vanish (m + 1) i h1 hi]
        rw [ih (by omega) i h1 hi]
        ring
      · have him : i = m + 2 := by omega
        subst him
        have hff : ((m + 2 : ℕ) : ℚ) = ((m + 1 : ℕ) : ℚ) + 1 := by push_cast; ring
        rw [hff, fallingFactorial_self (m + 1)]
        have hcm : coeff t m = interpEval t (buildCoeffs t m) m ((m : ℚ) + 2) := rfl
        have harg : ((m + 2 : ℕ) : ℚ) = (m : ℚ) + 2 := by push_cast; ring
        rw [show ((m + 1 : ℕ) : ℚ) + 1 = (m : ℚ) + 2 by push_cast; ring]
        rw [hcm]
        have hne := factorial_ne_zero (m + 1)
        field_simp

/-! ## Bridging the Option layer to the pure layer -/

/-- When the loop body reads a term that exists and a coefficient slot that is
assigned, it computes the pure value. -/
lemma stepVal_some (cs : List (Option ℚ)) (cp ts : List ℚ) (n : ℚ) (i : ℕ)
    (hi : i < ts.length) (hc : cs.getD (i - 1) none = some (cp.getD (i - 1) 0)) (a : ℚ) :
    stepVal cs ts n (some a) i =
      some ((ts.getD i 0 - cp.getD (i - 1) 0) * fallingFactorial n i / factorial i + a) := by
  unfold stepVal
  rw [hc]
  simp [jsSub, jsMul, jsDiv, jsAdd, List.getD_eq_getElem?_getD, List.getElem?_eq_getElem hi]

/-- When the loop body reads an unassigned coefficient slot, the running value
becomes non-numeric (`NaN`), whatever it was before. -/
lemma stepVal_noneCoeff (cs : List (Option ℚ)) (ts : List ℚ) (n : ℚ) (result : Option ℚ)
    (i : ℕ) (hc : cs.getD (i - 1) none = none) :
    stepVal cs ts n result i = none := by
  unfold stepVal
  rw [hc]
  cases ts.get? i <;> cases result <;> rfl

/-- The evaluation loops of `_interpolate` and `_computeCoefficient`, run for
`j` iterations over assigned coefficient slots, compute the pure running value. -/
lemma interpolate_fold_eq (ts : List ℚ) (cs : List (Option ℚ)) (cp : List ℚ) (n : ℚ) :
    ∀ j, j < ts.length →
      (∀ idx, idx < j → cs.getD idx none = some (cp.getD idx 0)) →
      (List.range' 1 j).foldl (fun result i => stepVal cs ts n result i) (ts.get? 0)
        = some (interpEval ts cp j n) := by
  intro j
  induction j with
  | zero =>
      intro hj _
      rw [List.range'_zero, List.foldl_nil, interpEval_zero]
      simp [List.getD_eq_getElem?_getD, List.getElem?_eq_getElem hj]
  | succ m ih =>
      intro hj hcs
      rw [List.range'_1_concat, List.foldl_append, List.foldl_cons, List.foldl_nil,
        ih (by omega) (fun idx h => hcs idx (by omega)), Nat.add_comm 1 m,
        stepVal_some cs cp ts n (m + 1) hj
          (by rw [Nat.add_sub_cancel]; exact hcs m (by omega)),
        interpEval_succ, Nat.add_sub_cancel]

/-- First components aside, the pair fold of `_computeCoefficient` keeps
`coefficient = result` while `i < terms.length - 1`. -/
lemma computeCoefficientRun_diag (cs : List (Option ℚ)) (ts : List ℚ) (n : ℚ) :
    ∀ (l : List ℕ), (∀ i ∈ l, i < ts.length - 1) → ∀ a : Option ℚ,
      l.foldl (fun st i => (stepVal cs ts n st.1 i,
          if i < ts.length - 1 then stepVal cs ts n st.1 i else st.2)) (a, a)
        = (l.foldl (fun result i => stepVal cs ts n result i) a,
           l.foldl (fun result i => stepVal cs ts n result i) a) := by
  intro l
  induction l with
  | nil => intro _ a; rfl
  | cons x xs ih =>
      intro hp a
      simp only [List.foldl_cons]
      rw [if_pos (hp x (by simp))]
      exact ih (fun i h => hp i (by simp [h])) _

/-- Unrolling the last iteration of `_computeCoefficient`: the returned
`coefficient` is the running value one iteration before the end, and the final
`result` is one further step. -/
lemma computeCoefficientRun_eq (cs : List (Option ℚ)) (ts : List ℚ) (n : ℚ)
    (h2 : 2 ≤ ts.length) :
    computeCoefficientRun cs ts n =
      (stepVal cs ts n
          ((List.range' 1 (ts.length - 2)).foldl
            (fun result i => stepVal cs ts n result i) (ts.get? 0)) (ts.length - 1),
        (List.range' 1 (ts.length - 2)).foldl
          (fun result i => stepVal cs ts n result i) (ts.get? 0)) := by
  unfold computeCoefficientRun
  have hL : ts.length - 1 = (ts.length - 2) + 1 := by omega
  have hsplit : List.range' 1 (ts.length - 1)
      = List.range' 1 (ts.length - 2) ++ [ts.length - 1] := by
    rw [hL, List.range'_1_concat, Nat.add_comm 1 (ts.length - 2), ← hL]
  rw [hsplit, List.foldl_append, List.foldl_cons, List.foldl_nil,
    computeCoefficientRun_diag cs ts n _
      (fun i hi => by rw [List.mem_range'_1] at hi; omega) _]
  rw [if_neg (by omega : ¬ (ts.length - 1 < ts.length - 1))]

/-- Reading an assigned slot of the partially built coefficient array. -/
lemma paddedCoeffs_getD_lt (t : List ℚ) (r K idx : ℕ) (h : idx < r) :
    ((buildCoeffs t r).map some ++ List.replicate K none).getD idx none
      = some ((buildCoeffs t r).getD idx 0) := by
  have hlen : idx < ((buildCoeffs t r).map some).length := by
    rw [List.length_map, buildCoeffs_length]; exact h
  have hlen' : idx < (buildCoeffs t r).length := by rw [buildCoeffs_length]; exact h
  rw [List.getD_eq_getElem?_getD, List.getElem?_append_left hlen, List.getElem?_map,
    List.getElem?_eq_getElem hlen']
  simp [List.getD_eq_getElem?_getD, List.getElem?_eq_getElem hlen']

/-- Reading the slot the constructor is currently filling: still unassigned. -/
lemma paddedCoeffs_getD_self (t : List ℚ) (r K : ℕ) (hK : 1 ≤ K) :
    ((buildCoeffs t r).map some ++ List.replicate K none).getD r none = none := by
  have hlen : ((buildCoeffs t r).map some).length ≤ r := by
    rw [List.length_map, buildCoeffs_length]
  rw [List.getD_eq_getElem?_getD, List.getElem?_append_right hlen, List.length_map,
    buildCoeffs_length, Nat.sub_self]
  cases K with
  | zero => omega
  | succ K' => simp

/-- `_computeCoefficient`, as called by the constructor at step `r + 1` on the
array holding the first `r` coefficients, returns the `r`-th pure coefficient
(the transient read of the unassigned slot in its last iteration is dropped). -/
lemma computeCoefficient_eq (t : List ℚ) (r : ℕ) (h : r + 2 ≤ t.length) (n : ℚ)
    (hn : n = (r : ℚ) + 2) :
    computeCoefficient ((buildCoeffs t r).map some ++ List.replicate (t.length - r) none)
      (t.take (r + 2)) n = some (coeff t r) := by
  set cs := (buildCoeffs t r).map some ++ List.replicate (t.length - r) none with hcs
  set ts := t.take (r + 2) with hts
  have hlen : ts.length = r + 2 := by rw [hts, List.length_take]; omega
  unfold computeCoefficient
  rw [computeCoefficientRun_eq cs ts n (by omega)]
  show (List.range' 1 (ts.length - 2)).foldl _ (ts.get? 0) = some (coeff t r)
  rw [show ts.length - 2 = r by omega,
    interpolate_fold_eq ts cs (buildCoeffs t r) n r (by omega)
      (fun idx hidx => by rw [hcs, paddedCoeffs_getD_lt t r _ idx hidx])]
  congr 1
  rw [hn]
  apply interpEval_congr
  · rw [hts]
    simp only [List.getD_eq_getElem?_getD, List.getElem?_take_of_lt (by omega : 0 < r + 2)]
  · intro j _ hj
    rw [hts]
    simp only [List.getD_eq_getElem?_getD, List.getElem?_take_of_lt (by omega : j < r + 2)]
  · intro j _
    rfl

/-- State of the coefficient array after the first `r` constructor iterations:
the first `r` slots are assigned the pure coefficients, the rest unassigned. -/
theorem mkCoefficientsUpTo_spec (t : List ℚ) :
    ∀ r, r + 1 ≤ t.length →
      mkCoefficientsUpTo t r
        = (buildCoeffs t r).map some ++ List.replicate (t.length - r) none := by
  intro r
  induction r with
  | zero =>
      intro _
      simp [mkCoefficientsUpTo, buildCoeffs]
  | succ m ih =>
      intro h
      have hm := ih (by omega)
      unfold mkCoefficientsUpTo at hm ⊢
      rw [List.range'_1_concat, List.foldl_append, List.foldl_cons, List.foldl_nil, hm,
        Nat.add_comm 1 m, Nat.add_sub_cancel,
        show m + 1 + 1 = m + 2 from rfl,
        computeCoefficient_eq t m (by omega) _ (by push_cast; ring),
        List.set_append_right _ _ (by rw [List.length_map, buildCoeffs_length]),
        List.length_map, buildCoeffs_length, Nat.sub_self,
        show t.length - m = (t.length - (m + 1)) + 1 by omega,
        List.replicate_succ, List.set_cons_zero, buildCoeffs_succ, List.map_append]
      simp

/-- The coefficient array of `new Sequence(...t)`: every pure coefficient
followed by the one slot the constructor loop never assigns. -/
theorem mkCoefficients_spec (t : List ℚ) (h : 1 ≤ t.length) :
    mkCoefficients t = (pureCoeffs t).map some ++ [none] := by
  unfold mkCoefficients pureCoeffs
  rw [mkCoefficientsUpTo_spec t (t.length - 1) (by omega),
    show t.length - (t.length - 1) = 1 by omega]
  rfl

/-- Reading an assigned coefficient slot of a constructed engine. -/
theorem make_coefficients_getD (t : List ℚ) {idx : ℕ} (h : idx < t.length - 1) :
    (Sequence.make t).coefficients.getD idx none = some (coeff t idx) := by
  show (mkCoefficients t).getD idx none = _
  unfold mkCoefficients
  rw [mkCoefficientsUpTo_spec t (t.length - 1) (by omega),
    paddedCoeffs_getD_lt t (t.length - 1) _ idx h, buildCoeffs_getD t h]

/-- `getNthTerm` computes the pure Newton forward-difference evaluation. -/
theorem getNthTerm_make (t : List ℚ) (h : 1 ≤ t.length) (n : ℚ) :
    (Sequence.make t).getNthTerm n
      = some (interpEval t (pureCoeffs t) (t.length - 1) n) := by
  have hterms : (Sequence.make t).terms = t := rfl
  unfold Sequence.getNthTerm Sequence.interpolate
  rw [hterms]
  exact interpolate_fold_eq t (Sequence.make t).coefficients (pureCoeffs t) n
    (t.length - 1) (by omega) (fun idx hidx => by
      rw [make_coefficients_getD t hidx]
      unfold pureCoeffs
      rw [buildCoeffs_getD t hidx])

/-! ## Closed-form sums and prefix stability -/

/-- The left-to-right accumulation as a closed-form sum (exact arithmetic). -/
lemma interpEval_eq_sum (t c : List ℚ) (r : ℕ) (n : ℚ) :
    interpEval t c r n = t.getD 0 0 + ∑ j in Finset.Icc 1 r,
      (t.getD j 0 - c.getD (j - 1) 0) * fallingFactorial n j / factorial j := by
  induction r with
  | zero => simp [interpEval_zero]
  | succ m ih =>
      rw [interpEval_succ, ih, Finset.sum_Icc_succ_top (by omega)]
      simp only [Nat.add_sub_cancel]
      ring

/-- `buildCoeffs` only reads the first `k` terms. -/
lemma buildCoeffs_take (t : List ℚ) (K : ℕ) :
    ∀ k, k ≤ K → buildCoeffs (t.take K) k = buildCoeffs t k := by
  intro k
  induction k with
  | zero => intro _; rfl
  | succ m ih =>
      intro h
      rw [buildCoeffs_succ, buildCoeffs_succ, ih (by omega)]
      unfold coeff
      rw [ih (by omega)]
      have heq : interpEval (t.take K) (buildCoeffs t m) m ((m : ℚ) + 2)
          = interpEval t (buildCoeffs t m) m ((m : ℚ) + 2) := by
        apply interpEval_congr
        · simp only [List.getD_eq_getElem?_getD, List.getElem?_take_of_lt (by omega : 0 < K)]
        · intro j _ hj
          simp only [List.getD_eq_getElem?_getD, List.getElem?_take_of_lt (by omega : j < K)]
        · intro j _
          rfl
      rw [heq]

/-- The `k`-th coefficient depends only on the terms `t[0..k+1]`. -/
lemma coeff_take (t : List ℚ) (k K : ℕ) (h : k + 1 ≤ K) :
    coeff (t.take K) k = coeff t k := by
  unfold coeff
  rw [buildCoeffs_take t K k (by omega)]
  apply interpEval_congr
  · simp only [List.getD_eq_getElem?_getD, List.getElem?_take_of_lt (by omega : 0 < K)]
  · intro j _ hj
    simp only [List.getD_eq_getElem?_getD, List.getElem?_take_of_lt (by omega : j < K)]
  · intro j _
    rfl

/-! ## Claims -/

/-- C1.  Interpolation identity: for every engine constructed with terms
`t[0..m-1]` (`m ≥ 1`) and every `i` with `1 ≤ i ≤ m`, `getNthTerm i` returns
the original term `t[i-1]` (exactly; the embedding uses exact rationals, so
"up to floating-point rounding" becomes exact equality). -/
theorem interpolation_identity (t : List ℚ) (i : ℕ) (h1 : 1 ≤ i) (h2 : i ≤ t.length) :
    (Sequence.make t).getNthTerm (i : ℚ) = some (t.getD (i - 1) 0) := by
  rw [getNthTerm_make t (by omega) (i : ℚ)]
  unfold pureCoeffs
  rw [interpEval_interpolates t (t.length - 1) (by omega) i h1 (by omega)]

/-- Witness for C1 at the concrete input `t = [1, 4, 9, 16]`, `i = 3`. -/
theorem interpolation_identity_witness :
    1 ≤ 3 ∧ 3 ≤ ([1, 4, 9, 16] : List ℚ).length ∧
      (Sequence.make [1, 4, 9, 16]).getNthTerm ((3 : ℕ) : ℚ) = some 9 :=
  ⟨by norm_num, by norm_num, by
    have h := interpolation_identity [1, 4, 9, 16] 3 (by norm_num) (by norm_num)
    simpa using h⟩

/-- C5.  Single-term constant: an engine built from one term `x` evaluates to
`x` at every position `n`. -/
theorem single_term_constant (x n : ℚ) :
    (Sequence.make [x]).getNthTerm n = some x := by
  rw [getNthTerm_make [x] (by norm_num) n]
  rfl

lemma fallingFactorial_one (n : ℚ) : fallingFactorial n 1 = n - 1 := by
  rw [show (1 : ℕ) = 0 + 1 from rfl, fallingFactorial_succ, fallingFactorial_zero]
  norm_num

lemma fallingFactorial_two (n : ℚ) : fallingFactorial n 2 = (n - 1) * (n - 2) := by
  rw [show (2 : ℕ) = 1 + 1 from rfl, fallingFactorial_succ, fallingFactorial_one]
  norm_num

/-- The three coefficients stored for the terms `2, 4, 6, 8`. -/
lemma coeff_2468_zero : coeff [2, 4, 6, 8] 0 = 2 := rfl

lemma coeff_2468_one : coeff [2, 4, 6, 8] 1 = 6 := by
  show interpEval [2, 4, 6, 8] (buildCoeffs [2, 4, 6, 8] 1) 1 (((1 : ℕ) : ℚ) + 2) = 6
  rw [show buildCoeffs [2, 4, 6, 8] 1 = [2] from rfl]
  unfold interpEval
  rw [show List.range' 1 1 = [1] from rfl]
  simp only [List.foldl_cons, List.foldl_nil]
  rw [fallingFactorial_one]
  norm_num [List.getD, factorial_eq]

lemma coeff_2468_two : coeff [2, 4, 6, 8] 2 = 8 := by
  show interpEval [2, 4, 6, 8] (buildCoeffs [2, 4, 6, 8] 2) 2 (((2 : ℕ) : ℚ) + 2) = 8
  rw [show buildCoeffs [2, 4, 6, 8] 2
      = buildCoeffs [2, 4, 6, 8] 1 ++ [coeff [2, 4, 6, 8] 1] from rfl, coeff_2468_one,
    show buildCoeffs [2, 4, 6, 8] 1 ++ [(6 : ℚ)] = [2, 6] from rfl]
  unfold interpEval
  rw [show List.range' 1 2 = [1, 2] from rfl]
  simp only [List.foldl_cons, List.foldl_nil]
  rw [fallingFactorial_one, fallingFactorial_two]
  norm_num [List.getD, factorial_eq, Nat.factorial]

/-- C8.  Arithmetic sequence linearity: the engine built from `2, 4, 6, 8`
satisfies `getNthTerm n = 2 * n` for every rational `n` (hence `10` at `5`
and `-2` at `-1`). -/
theorem arithmetic_sequence_linear (n : ℚ) :
    (Sequence.make [2, 4, 6, 8]).getNthTerm n = some (2 * n) := by
  rw [getNthTerm_make [2, 4, 6, 8] (by norm_num) n]
  congr 1
  show interpEval [2, 4, 6, 8] (pureCoeffs [2, 4, 6, 8]) 3 n = 2 * n
  have hp0 : (pureCoeffs [2, 4, 6, 8]).getD 0 0 = 2 := by
    unfold pureCoeffs
    rw [buildCoeffs_getD _ (by norm_num)]
    exact coeff_2468_zero
  have hp1 : (pureCoeffs [2, 4, 6, 8]).getD 1 0 = 6 := by
    unfold pureCoeffs
    rw [buildCoeffs_getD _ (by norm_num)]
    exact coeff_2468_one
  have hp2 : (pureCoeffs [2, 4, 6, 8]).getD 2 0 = 8 := by
    unfold pureCoeffs
    rw [buildCoeffs_getD _ (by norm_num)]
    exact coeff_2468_two
  unfold interpEval
  rw [show List.range' 1 3 = [1, 2, 3] from rfl]
  simp only [List.foldl_cons, List.foldl_nil]
  rw [show (1 : ℕ) - 1 = 0 from rfl, show (2 : ℕ) - 1 = 1 from rfl,
    show (3 : ℕ) - 1 = 2 from rfl, hp0, hp1, hp2,
    show ([2, 4, 6, 8] : List ℚ).getD 0 0 = 2 from rfl,
    show ([2, 4, 6, 8] : List ℚ).getD 1 0 = 4 from rfl,
    show ([2, 4, 6, 8] : List ℚ).getD 2 0 = 6 from rfl,
    show ([2, 4, 6, 8] : List ℚ).getD 3 0 = 8 from rfl,
    fallingFactorial_one, show factorial 1 = 1 from rfl]
  ring

/-- C9.  `fallingFactorial n length` is the product `(n-1)*(n-2)*...*(n-length)`
of `length` consecutive factors, `1` for `length = 0` (empty product), and
`fallingFactorial 5 3 = 24`. -/
theorem fallingFactorial_correct (n : ℚ) (len : ℕ) :
    fallingFactorial n len = ∏ i in Finset.Icc 1 len, (n - (i : ℚ))
      ∧ fallingFactorial n 0 = 1
      ∧ fallingFactorial 5 3 = 24 :=
  ⟨fallingFactorial_eq_prod n len, rfl, by norm_num [fallingFactorial, List.range']⟩

/-- C3, counterexample: constructing with an empty term list does not fail —
the constructor has no validation path at all — and yields an instance with
empty term and coefficient tables whose evaluation is non-numeric. -/
theorem zero_term_no_failure :
    (Sequence.make []).terms = [] ∧ (Sequence.make []).coefficients = []
      ∧ (Sequence.make []).getNthTerm 1 = none :=
  ⟨rfl, rfl, rfl⟩

/-- C3, amended: a zero-term construction silently yields an instance; it is
unusable in that evaluation returns a non-numeric value (`undefined`) at
every position. -/
theorem zero_term_yields_unusable (n : ℚ) :
    (Sequence.make []).getNthTerm n = none := rfl

/-- C4, counterexample: for the 1-term construction `[5]`, the coefficient
table is `[none]` — it has length 1 (not empty) and its sole entry is not a
numeric value (`new Array(1)` leaves the slot unassigned). -/
theorem coefficient_table_counterexample :
    (Sequence.make [5]).coefficients = [none]
      ∧ (Sequence.make [5]).coefficients ≠ []
      ∧ ¬ (∀ o ∈ (Sequence.make [5]).coefficients, o.isSome) := by
  have hc : (Sequence.make [5]).coefficients = [none] := rfl
  refine ⟨hc, by rw [hc]; simp, by rw [hc]; simp⟩

/-- C4, amended: the coefficient table has the same length as the term list;
its first `m - 1` entries are numeric, entry `i` holding the divided-difference
coefficient derived from `terms[0..i+1]` only; the final slot is never
assigned.  A 1-term construction yields a table with one unassigned slot and
no numeric entries. -/
theorem coefficient_table_shape (t : List ℚ) (h : 1 ≤ t.length) :
    (Sequence.make t).coefficients.length = t.length
      ∧ (∀ i, i < t.length - 1 →
          (Sequence.make t).coefficients.getD i none = some (coeff t i)
            ∧ coeff (t.take (i + 2)) i = coeff t i)
      ∧ (Sequence.make t).coefficients.getD (t.length - 1) none = none := by
  refine ⟨?_, fun i hi => ⟨make_coefficients_getD t hi, coeff_take t i (i + 2) (by omega)⟩, ?_⟩
  · show (mkCoefficients t).length = t.length
    rw [mkCoefficients_spec t h, List.length_append, List.length_map]
    unfold pureCoeffs
    rw [buildCoeffs_length]
    simp
    omega
  · show (mkCoefficients t).getD (t.length - 1) none = none
    unfold mkCoefficients
    rw [mkCoefficientsUpTo_spec t (t.length - 1) (by omega)]
    exact paddedCoeffs_getD_self t (t.length - 1) _ (by omega)

/-- Witness for C4 (amended) at the concrete input `t = [1, 4, 9]`. -/
theorem coefficient_table_shape_witness :
    1 ≤ ([1, 4, 9] : List ℚ).length ∧
      ((Sequence.make [1, 4, 9]).coefficients.length = ([1, 4, 9] : List ℚ).length
        ∧ (∀ i, i < ([1, 4, 9] : List ℚ).length - 1 →
            (Sequence.make [1, 4, 9]).coefficients.getD i none = some (coeff [1, 4, 9] i)
              ∧ coeff (([1, 4, 9] : List ℚ).take (i + 2)) i = coeff [1, 4, 9] i)
        ∧ (Sequence.make [1, 4, 9]).coefficients.getD (([1, 4, 9] : List ℚ).length - 1) none
            = none) :=
  ⟨by norm_num, coefficient_table_shape [1, 4, 9] (by norm_num)⟩

/-- C10.  Implicit construction safety: at constructor step `i` the helper's
final inner iteration reads the still-unassigned slot `i - 1`, so its running
`result` ends as a non-numeric transient (`none`); that transient is
discarded — the retained `coefficient` was captured one iteration earlier —
and every stored coefficient is a well-defined number. -/
theorem construction_transient_nan (t : List ℚ) (i : ℕ) (h1 : 1 ≤ i) (h2 : i < t.length) :
    (computeCoefficientRun (mkCoefficientsUpTo t (i - 1)) (t.take (i + 1)) ((i : ℚ) + 1)).1
        = none
      ∧ (Sequence.make t).coefficients.getD (i - 1) none = some (coeff t (i - 1)) := by
  constructor
  · have hlen : (t.take (i + 1)).length = i + 1 := by
      rw [List.length_take]; omega
    rw [computeCoefficientRun_eq _ _ _ (by omega)]
    show stepVal _ _ _ _ ((t.take (i + 1)).length - 1) = none
    apply stepVal_noneCoeff
    rw [hlen, Nat.add_sub_cancel, mkCoefficientsUpTo_spec t (i - 1) (by omega)]
    exact paddedCoeffs_getD_self t (i - 1) _ (by omega)
  · exact make_coefficients_getD t (by omega)

/-- Witness for C10 at the concrete input `t = [2, 4, 9]`, step `i = 2`. -/
theorem construction_transient_nan_witness :
    1 ≤ 2 ∧ 2 < ([2, 4, 9] : List ℚ).length ∧
      ((computeCoefficientRun (mkCoefficientsUpTo [2, 4, 9] (2 - 1))
            (([2, 4, 9] : List ℚ).take (2 + 1)) (((2 : ℕ) : ℚ) + 1)).1 = none
        ∧ (Sequence.make [2, 4, 9]).coefficients.getD (2 - 1) none
            = some (coeff [2, 4, 9] (2 - 1))) :=
  ⟨by norm_num, by norm_num, construction_transient_nan [2, 4, 9] 2 (by norm_num) (by norm_num)⟩

/-- C2.  Coefficient construction: the stored coefficient `c[k-1]` equals the
interpolation formula built from the already-known coefficients `c[0..k-2]`
over the prefix `t[0..k-1]`, evaluated at `n = k + 1` — the accumulated value
just before the newest term `t[k]` would be incorporated. -/
theorem coefficient_construction (t : List ℚ) (k : ℕ) (h1 : 1 ≤ k) (h2 : k ≤ t.length - 1) :
    (Sequence.make t).coefficients.getD (k - 1) none
      = some (specCoefficient t (pureCoeffs t) k) := by
  have hk1 : k - 1 < t.length - 1 := by omega
  rw [make_coefficients_getD t hk1]
  congr 1
  have hpure : coeff t (k - 1) = interpEval t (pureCoeffs t) (k - 1) (((k - 1 : ℕ) : ℚ) + 2) := by
    unfold coeff
    apply interpEval_congr
    · rfl
    · intro j _ _
      rfl
    · intro j hj
      unfold pureCoeffs
      rw [buildCoeffs_getD t hj, buildCoeffs_getD t (by omega)]
  rw [hpure, interpEval_eq_sum]
  unfold specCoefficient
  have hcast : ((k - 1 : ℕ) : ℚ) + 2 = (k : ℚ) + 1 := by
    have : ((k - 1 : ℕ) : ℚ) = (k : ℚ) - 1 := by
      push_cast [Nat.cast_sub h1]
      ring
    rw [this]
    ring
  rw [hcast]

/-- Witness for C2 at the concrete input `t = [1, 4, 9, 16]`, `k = 2`. -/
theorem coefficient_construction_witness :
    1 ≤ 2 ∧ 2 ≤ ([1, 4, 9, 16] : List ℚ).length - 1 ∧
      (Sequence.make [1, 4, 9, 16]).coefficients.getD (2 - 1) none
        = some (specCoefficient [1, 4, 9, 16] (pureCoeffs [1, 4, 9, 16]) 2) :=
  ⟨by norm_num, by norm_num,
    coefficient_construction [1, 4, 9, 16] 2 (by norm_num) (by norm_num)⟩

/-- C6.  Formula/value consistency: the arithmetic value of the rendered
formula (the spec's reading of `toFormula()`, `formulaValue`) equals
`getNthTerm n` for every `n`. -/
theorem formula_value_consistency (t : List ℚ) (h : 1 ≤ t.length) (n : ℚ) :
    (Sequence.make t).getNthTerm n = some (formulaValue t (pureCoeffs t) n) := by
  rw [getNthTerm_make t h n]
  congr 1
  rw [interpEval_eq_sum]
  unfold formulaValue
  have hIcc : Finset.Icc 2 t.length = (Finset.Icc 1 (t.length - 1)).map (addRightEmbedding 1) := by
    rw [Finset.map_add_right_Icc]
    congr 1
    omega
  rw [hIcc, Finset.sum_map]
  rw [Finset.sum_congr rfl (fun j hj => ?_)]
  · ring
  · rw [Finset.mem_Icc] at hj
    rw [addRightEmbedding_apply,
      show j + 1 - 1 = j from rfl, show j + 1 - 2 = j - 1 by omega]

/-- Witness for C6 at the concrete input `t = [1, 4, 9]`, `n = 7`. -/
theorem formula_value_consistency_witness :
    1 ≤ ([1, 4, 9] : List ℚ).length ∧
      (Sequence.make [1, 4, 9]).getNthTerm 7
        = some (formulaValue [1, 4, 9] (pureCoeffs [1, 4, 9]) 7) :=
  ⟨by norm_num, formula_value_consistency [1, 4, 9] (by norm_num) 7⟩

/-! ## Formula rendering (C7) -/

lemma joinedPlus_cons (s : String) (rest : List String) (h : rest ≠ []) :
    joinedPlus (s :: rest) = s ++ " + " ++ joinedPlus rest := by
  cases rest with
  | nil => exact absurd rfl h
  | cons a l => rfl

lemma foldl_factor_append (g : ℕ → String) :
    ∀ (l : List ℕ) (init : String),
      l.foldl (fun acc j => acc ++ g j) init = init ++ concatStrings (l.map g) := by
  intro l
  induction l with
  | nil => intro init; simp [concatStrings]
  | cons x xs ih =>
      intro init
      rw [List.foldl_cons, ih, List.map_cons,
        show concatStrings (g x :: xs.map g) = g x ++ concatStrings (xs.map g) from rfl,
        String.append_assoc]

lemma foldl_terms_append (F : String → ℕ → String) (g : ℕ → String) :
    ∀ (l : List ℕ), (∀ acc k, k ∈ l → F acc k = acc ++ (g k ++ " + ")) →
      ∀ (init c : String),
        l.foldl F init ++ c = init ++ joinedPlus (l.map g ++ [c]) := by
  intro l
  induction l with
  | nil =>
      intro _ init c
      rfl
  | cons x xs ih =>
      intro hF init c
      rw [List.foldl_cons, hF init x (by simp),
        ih (fun acc k hk => hF acc k (by simp [hk])) _ c,
        List.map_cons, List.cons_append, joinedPlus_cons _ _ (by simp)]
      simp [String.append_assoc]

/-- C7.  `toFormula()` structure: the returned string begins `" f(n) = "`;
the non-constant terms appear from highest order `k = m` down to `k = 2`,
each rendered as its coefficient difference `(t[k-1] - c[k-2])`, its
falling-factorial product expanded as explicit `(n-j)` factors for
`j = 1..k-1`, and its factorial denominator `(k-1)!`; terms are joined with
`" + "`, and the constant term `t[0]` is appended last with no trailing
operator. -/
theorem toFormula_structure (ρ : ℚ → String) (t : List ℚ) (h : 1 ≤ t.length) :
    (Sequence.make t).toFormula ρ
      = " f(n) = " ++ joinedPlus
          ((((List.range' 2 (t.length - 1)).reverse).map (termString ρ t (pureCoeffs t)))
            ++ [ρ (t.getD 0 0)]) := by
  unfold Sequence.toFormula
  have hterms : (Sequence.make t).terms = t := rfl
  rw [hterms]
  have hconst : renderOpt ρ (t.get? 0) = ρ (t.getD 0 0) := by
    rw [List.get?_eq_getElem?, List.getElem?_eq_getElem (by omega : 0 < t.length)]
    simp [renderOpt, List.getD_eq_getElem?_getD, List.getElem?_eq_getElem
      (by omega : 0 < t.length)]
  rw [hconst]
  refine foldl_terms_append _ (termString ρ t (pureCoeffs t)) _ (fun acc k hk => ?_) _ _
  rw [List.mem_reverse, List.mem_range'_1] at hk
  have hk1 : k - 1 < t.length := by omega
  have hk2 : k - 2 < t.length - 1 := by omega
  have hterm : renderOpt ρ (t.get? (k - 1)) = ρ (t.getD (k - 1) 0) := by
    rw [List.get?_eq_getElem?, List.getElem?_eq_getElem hk1]
    simp [renderOpt, List.getD_eq_getElem?_getD, List.getElem?_eq_getElem hk1]
  have hcoef : renderOpt ρ ((Sequence.make t).coefficients.getD (k - 2) none)
      = ρ ((pureCoeffs t).getD (k - 2) 0) := by
    rw [make_coefficients_getD t hk2]
    unfold pureCoeffs
    rw [buildCoeffs_getD t hk2]
    rfl
  rw [hterm, hcoef, foldl_factor_append (fun j => "(n-" ++ toString j ++ ")")
    (List.range' 1 (k - 1)) ""]
  unfold termString
  simp [String.append_assoc]

/-- Witness for C7 at the concrete input `t = [1, 4, 9]` with the integer
renderer `fun q => toString q.num`. -/
theorem toFormula_structure_witness :
    1 ≤ ([1, 4, 9] : List ℚ).length ∧
      (Sequence.make [1, 4, 9]).toFormula (fun q => toString q.num)
        = " f(n) = " ++ joinedPlus
            ((((List.range' 2 (([1, 4, 9] : List ℚ).length - 1)).reverse).map
                (termString (fun q => toString q.num) [1, 4, 9] (pureCoeffs [1, 4, 9])))
              ++ [(fun q => toString q.num) (([1, 4, 9] : List ℚ).getD 0 0)]) :=
  ⟨by norm_num, toFormula_structure (fun q => toString q.num) [1, 4, 9] (by norm_num)⟩

end SeqToFormula
